import Mathlib

/-!
# Cursor pagination for the Chatty group-messaging resolver

Shallow embedding of the `ConnectionInput` cursor-pagination contract of the
Chatty tutorial repository: the `messages` field resolver on `Group`
(server/data/logic.js), the `ConnectionInput` schema input type, and the
client queries that drive it.
-/

/-- A chat message.  In the source a Message row has an auto-increment
integer `id`, a `groupId` foreign key and a `text` body (plus timestamps and
sender references that pagination never inspects). -/
structure Message where
  id : Nat
  groupId : Nat
  text : String
deriving DecidableEq, Repr

/-- The `ConnectionInput` GraphQL input type from server/data/schema.js:
`first : Int`, `after : String`, `last : Int`, `before : String`, all four
optional. -/
structure ConnectionInput where
  first : Option Int := none
  after : Option String := none
  last : Option Int := none
  before : Option String := none
deriving DecidableEq, Repr

/-- A `MessageEdge`: a cursor paired with its message node. -/
structure Edge where
  cursor : String
  node : Message
deriving DecidableEq, Repr

/-- The `PageInfo` GraphQL type: `hasNextPage`, `hasPreviousPage`. -/
structure PageInfo where
  hasNextPage : Bool
  hasPreviousPage : Bool
deriving DecidableEq, Repr

/-- A `MessageConnection`: edges plus page info. -/
structure Connection where
  edges : List Edge
  pageInfo : PageInfo
deriving DecidableEq, Repr

/-- Modelled from the spec: the error taxonomy of §7 (the resolver body in
server/data/logic.js is shown only in part in the tutorial diff, so the
error kinds are taken from the spec's taxonomy): `NotFound`,
`InvalidCursor`, `InvalidRange`. -/
inductive PaginateError where
  | NotFound
  | InvalidCursor
  | InvalidRange
deriving DecidableEq, Repr

deriving instance DecidableEq for Except

/-! ## Cursor encoding

The tutorial diff never shows the cursor codec itself (the spec notes "the
source does not specify an encoding scheme precisely, so implementers
should choose one and document it").  We document one: the decimal string
of the message `id`. -/

/-- The character for a single decimal digit `d` (`0 ≤ d ≤ 9`). -/
def digitChar (d : Nat) : Char := Char.ofNat (d + 48)

/-- Little-endian decimal digits of `n`, with explicit fuel so that the
recursion is structural (and hence kernel-reducible). -/
def toDigitsRev (fuel : Nat) (n : Nat) : List Nat :=
  match fuel with
  | 0 => []
  | f + 1 => if n = 0 then [] else (n % 10) :: toDigitsRev f (n / 10)

/-- Modelled from the spec: cursor encoding (absent from the diff) — a
pure, deterministic string encoding of the message's ordering key, here
the decimal representation of the `id`. -/
def encodeCursor (n : Nat) : String :=
  if n = 0 then "0" else String.mk (((toDigitsRev n n).reverse).map digitChar)

/-- Numeric value of a little-endian digit list. -/
def valRev (ds : List Nat) : Nat :=
  match ds with
  | [] => 0
  | d :: ds => d + 10 * valRev ds

/-- Modelled from the spec: cursor decoding (absent from the diff) — the
left inverse of `encodeCursor`; a string that is not a nonempty run of
decimal digits is undecodable. -/
def decodeCursor (s : String) : Option Nat :=
  if s.data ≠ [] ∧ s.data.all (fun c => c.isDigit) then
    some (valRev ((s.data.map (fun c => c.toNat - 48)).reverse))
  else
    none

/-! ## The canonical order -/

/-- Reverse-chronological comparison on messages: `a` comes no later than
`b` in the canonical order when `b.id ≤ a.id` (newest first). -/
def msgDesc (a b : Message) : Prop := b.id ≤ a.id

instance : DecidableRel msgDesc := fun a b => inferInstanceAs (Decidable (b.id ≤ a.id))

instance : IsTotal Message msgDesc := ⟨fun a b => Nat.le_total b.id a.id⟩

instance : IsTrans Message msgDesc := ⟨fun _ _ _ h1 h2 => Nat.le_trans h2 h1⟩

/-- The base ordered set of the resolver: all messages of the group
(`where = { groupId: group.id }` in server/data/logic.js), ordered by `id`
descending — the canonical total order cursors are defined against
(spec §4.1 step 1; the `order` clause itself is absent from the diff and
modelled from the spec). -/
def canonical (db : List Message) (g : Nat) : List Message :=
  List.insertionSort msgDesc (db.filter (fun m => m.groupId == g))

/-! ## The window computation (spec §4.1 steps 2–7) -/

/-- Modelled from the spec: step 2 — restrict to messages strictly older
(smaller `id`) than the `after` cursor's referent. -/
def applyAfter (bound : Option Nat) (l : List Message) : List Message :=
  match bound with
  | none => l
  | some k => l.filter (fun m => m.id < k)

/-- Modelled from the spec: step 3 — restrict to messages strictly newer
(larger `id`) than the `before` cursor's referent. -/
def applyBefore (bound : Option Nat) (l : List Message) : List Message :=
  match bound with
  | none => l
  | some k => l.filter (fun m => k < m.id)

/-- Modelled from the spec: step 4 — take the leading `first` elements. -/
def applyFirst (f : Option Int) (l : List Message) : List Message :=
  match f with
  | none => l
  | some f => l.take f.toNat

/-- Modelled from the spec: step 5 — take the trailing `last` elements of
the result of the forward step. -/
def applyLast (f : Option Int) (l : List Message) : List Message :=
  match f with
  | none => l
  | some f => l.drop (l.length - f.toNat)

/-- Modelled from the spec: step 6 — `hasNextPage` is true iff elements
remain in the canonical order beyond the last element of the returned
page. -/
def hasNextOf (base page : List Message) : Bool :=
  match page.getLast? with
  | none => false
  | some m => base.any (fun x => x.id < m.id)

/-- Modelled from the spec: step 7 — `hasPreviousPage` is true iff
elements exist before the first element of the returned page. -/
def hasPrevOf (base page : List Message) : Bool :=
  match page.head? with
  | none => false
  | some m => base.any (fun x => m.id < x.id)

/-- True when an optional `Int` argument is present and negative. -/
def negOpt (f : Option Int) : Bool :=
  match f with
  | none => false
  | some f => decide (f < 0)

/-- Decode an optional cursor bound; an undecodable cursor is the
`InvalidCursor` error (spec §4.1 inputs). -/
def decodeBound (c : Option String) : Except PaginateError (Option Nat) :=
  match c with
  | none => .ok none
  | some s =>
    match decodeCursor s with
    | none => .error .InvalidCursor
    | some k => .ok (some k)

/-- An edge for a returned message: its cursor plus the node. -/
def mkEdge (m : Message) : Edge := ⟨encodeCursor m.id, m⟩

/-- The returned window: after/before bounds (already decoded to `a`, `b`),
then the forward slice, then the backward slice (spec §4.1 steps 2-5). -/
def pageOf (db : List Message) (g : Nat) (ci : ConnectionInput)
    (a b : Option Nat) : List Message :=
  applyLast ci.last (applyFirst ci.first (applyBefore b (applyAfter a (canonical db g))))

/-- Modelled from the spec: the resolver core
`paginateMessages(groupId, connectionInput)` of §4.1 (the body of the
`messages` resolver in server/data/logic.js is shown only down to its
`where = { groupId: group.id }` base filter in the diff; the remaining
steps follow the spec's algorithm).  `groups` is the set of existing group
ids and `db` the message table. -/
def paginateMessages (groups : List Nat) (db : List Message) (groupId : Nat)
    (ci : ConnectionInput) : Except PaginateError Connection :=
  if ¬ groups.contains groupId then .error .NotFound
  else if negOpt ci.first || negOpt ci.last then .error .InvalidRange
  else
    match decodeBound ci.after, decodeBound ci.before with
    | .error e, _ => .error e
    | _, .error e => .error e
    | .ok afterKey, .ok beforeKey =>
      let page := pageOf db groupId ci afterKey beforeKey
      .ok { edges := page.map mkEdge
          , pageInfo := { hasNextPage := hasNextOf (canonical db groupId) page
                        , hasPreviousPage := hasPrevOf (canonical db groupId) page } }

/-- The `messages` field resolver as written in server/data/logic.js:
`messages(group, { messageConnection = {} })` — when the argument object
carries no `messageConnection`, it defaults to the empty object, whose
destructuring leaves all four of `first`, `last`, `before`, `after`
absent; whatever connection the caller supplies is forwarded unchanged. -/
def messagesResolver (groups : List Nat) (db : List Message) (groupId : Nat)
    (messageConnection : Option ConnectionInput) : Except PaginateError Connection :=
  paginateMessages groups db groupId (messageConnection.getD {})

/-- The client's load-more loop (messages.screen.js `fetchMore`): request
`first` more messages starting after the cursor of the last (oldest) edge
of the previous page, repeating while pages report `hasNextPage`; `fuel`
bounds the recursion so the definition stays structural. -/
def collectAll (groups : List Nat) (db : List Message) (g k : Nat) :
    Nat → Option String → List Edge
  | 0, _ => []
  | fuel + 1, aft =>
    match paginateMessages groups db g ⟨some (Int.ofNat k), aft, none, none⟩ with
    | .error _ => []
    | .ok conn =>
      match conn.edges.getLast? with
      | none => conn.edges
      | some e =>
        if conn.pageInfo.hasNextPage then
          conn.edges ++ collectAll groups db g k fuel (some e.cursor)
        else conn.edges

/-- The spec's concrete scenario database (§8.6): group `1` holds messages
with ids `[10, 11, 12, 13, 14]`, inserted oldest to newest. -/
def demoDb : List Message :=
  [⟨10, 1, "a"⟩, ⟨11, 1, "b"⟩, ⟨12, 1, "c"⟩, ⟨13, 1, "d"⟩, ⟨14, 1, "e"⟩]

/-- A two-group database used to exercise the group-scoping invariant:
group `1` as in `demoDb`, plus group `2` holding ids `[20, 21]`. -/
def twoGroupDb : List Message :=
  demoDb ++ [⟨20, 2, "f"⟩, ⟨21, 2, "g"⟩]

/-- A three-message database for the `first`-exceeds-count boundary. -/
def threeDb : List Message := [⟨1, 7, "p"⟩, ⟨2, 7, "q"⟩, ⟨3, 7, "r"⟩]

/-! ## Cursor codec lemmas -/

theorem toDigitsRev_lt (fuel : Nat) : ∀ n, ∀ d ∈ toDigitsRev fuel n, d < 10 := by
  induction fuel with
  | zero => intro n d hd; simp [toDigitsRev] at hd
  | succ f ih =>
    intro n d hd
    by_cases h0 : n = 0
    · simp [toDigitsRev, h0] at hd
    · simp only [toDigitsRev, h0, if_false, List.mem_cons] at hd
      rcases hd with h | h
      · exact h ▸ Nat.mod_lt _ (by omega)
      · exact ih _ _ h

theorem valRev_toDigitsRev (fuel : Nat) : ∀ n, n ≤ fuel → valRev (toDigitsRev fuel n) = n := by
  induction fuel with
  | zero => intro n hn; interval_cases n; simp [toDigitsRev, valRev]
  | succ f ih =>
    intro n hn
    by_cases h0 : n = 0
    · simp [toDigitsRev, h0, valRev]
    · have hdiv : n / 10 ≤ f := by
        have hlt : n / 10 < n := Nat.div_lt_self (Nat.pos_of_ne_zero h0) (by omega)
        omega
      simp only [toDigitsRev, h0, if_false, valRev, ih _ hdiv]
      omega

theorem digitChar_spec (d : Nat) (hd : d < 10) :
    (digitChar d).toNat - 48 = d ∧ (digitChar d).isDigit = true := by
  interval_cases d <;> exact ⟨by decide, by decide⟩

theorem toDigitsRev_ne_nil (n : Nat) (h0 : n ≠ 0) : toDigitsRev n n ≠ [] := by
  cases n with
  | zero => exact absurd rfl h0
  | succ f => simp [toDigitsRev]

/-- Decoding the cursor encoded for `n` recovers `n`: the codec is a
left-invertible pure function of the ordering key. -/
theorem decodeCursor_encodeCursor (n : Nat) : decodeCursor (encodeCursor n) = some n := by
  by_cases h0 : n = 0
  · subst h0; decide
  · have hdata : (encodeCursor n).data = ((toDigitsRev n n).reverse).map digitChar := by
      simp [encodeCursor, h0]
    have hmem : ∀ d ∈ (toDigitsRev n n).reverse, d < 10 := by
      intro d hd
      exact toDigitsRev_lt n n d (List.mem_reverse.mp hd)
    have hne : ((toDigitsRev n n).reverse).map digitChar ≠ [] := by
      simp only [ne_eq, List.map_eq_nil_iff, List.reverse_eq_nil_iff]
      exact toDigitsRev_ne_nil n h0
    have hall : (((toDigitsRev n n).reverse).map digitChar).all (fun c => c.isDigit) = true := by
      rw [List.all_eq_true]
      intro c hc
      obtain ⟨d, hd, rfl⟩ := List.mem_map.mp hc
      exact (digitChar_spec d (hmem d hd)).2
    have hval :
        ((((toDigitsRev n n).reverse).map digitChar).map (fun c => c.toNat - 48)).reverse =
          toDigitsRev n n := by
      rw [List.map_map]
      have h2 : ((toDigitsRev n n).reverse).map ((fun c => c.toNat - 48) ∘ digitChar) =
          ((toDigitsRev n n).reverse).map id :=
        List.map_congr_left (fun d hd => (digitChar_spec d (hmem d hd)).1)
      rw [h2, List.map_id, List.reverse_reverse]
    simp only [decodeCursor, hdata, hne, hall, ne_eq, not_false_iff, true_and, if_pos, hval]
    rw [valRev_toDigitsRev n n (Nat.le_refl n)]

/-! ## Canonical-order lemmas -/

theorem canonical_perm (db : List Message) (g : Nat) :
    List.Perm (canonical db g) (db.filter (fun m => m.groupId == g)) :=
  List.perm_insertionSort msgDesc _

theorem canonical_sorted (db : List Message) (g : Nat) :
    List.Sorted msgDesc (canonical db g) :=
  List.sorted_insertionSort msgDesc _

theorem mem_canonical_groupId (db : List Message) (g : Nat) (m : Message)
    (hm : m ∈ canonical db g) : m.groupId = g := by
  have := (canonical_perm db g).mem_iff.mp hm
  have := (List.mem_filter.mp this).2
  simpa using this

/-- When the group's rows were inserted with strictly increasing ids (so
ids are pairwise distinct), the canonical order is strictly descending. -/
theorem canonical_strictDesc (db : List Message) (g : Nat)
    (hasc : (db.filter (fun m => m.groupId == g)).Pairwise (fun a b => a.id < b.id)) :
    (canonical db g).Pairwise (fun a b => b.id < a.id) := by
  have hne : (db.filter (fun m => m.groupId == g)).Pairwise (fun a b => a.id ≠ b.id) :=
    hasc.imp (fun h => Nat.ne_of_lt h)
  have hsymm : Symmetric (fun a b : Message => a.id ≠ b.id) := fun _ _ h => h.symm
  have hne' : (canonical db g).Pairwise (fun a b => a.id ≠ b.id) :=
    (List.Perm.pairwise_iff (fun hxy => Ne.symm hxy) (canonical_perm db g)).mpr hne
  have hsorted : (canonical db g).Pairwise msgDesc := canonical_sorted db g
  exact (hsorted.and hne').imp (fun h => lt_of_le_of_ne h.1 h.2.symm)

/-! ## Suffix lemmas over the strictly descending canonical order -/

theorem filter_lt_suffix :
    ∀ (P : List Message) (x : Message) (S : List Message),
      (P ++ x :: S).Pairwise (fun a b => b.id < a.id) →
      (P ++ x :: S).filter (fun m => m.id < x.id) = S := by
  intro P
  induction P with
  | nil =>
    intro x S h
    rw [List.nil_append] at h ⊢
    obtain ⟨hS, -⟩ := List.pairwise_cons.mp h
    rw [List.filter_cons]
    have hx : (decide (x.id < x.id)) = false := by simp
    rw [hx]
    simp only [Bool.false_eq_true, if_false]
    exact List.filter_eq_self.mpr (fun a ha => by simpa using hS a ha)
  | cons p P ih =>
    intro x S h
    rw [List.cons_append] at h ⊢
    obtain ⟨hp, htail⟩ := List.pairwise_cons.mp h
    have hx : x.id < p.id := hp x (by simp)
    rw [List.filter_cons]
    have hpx : (decide (p.id < x.id)) = false := by
      simp only [decide_eq_false_iff_not]
      omega
    rw [hpx]
    simp only [Bool.false_eq_true, if_false]
    exact ih x S htail

theorem any_lt_last (P : List Message) (x : Message)
    (h : (P ++ [x]).Pairwise (fun a b => b.id < a.id)) :
    (P ++ [x]).any (fun m => m.id < x.id) = false := by
  have hf := filter_lt_suffix P x [] h
  rw [List.any_eq_false]
  intro m hm hp
  have hmem : m ∈ (P ++ x :: []).filter (fun m => m.id < x.id) :=
    List.mem_filter.mpr ⟨hm, by simpa using hp⟩
  rw [hf] at hmem
  exact absurd hmem (List.not_mem_nil m)

theorem any_lt_more (P : List Message) (x y : Message) (S : List Message)
    (h : (P ++ x :: y :: S).Pairwise (fun a b => b.id < a.id)) :
    (P ++ x :: y :: S).any (fun m => m.id < x.id) = true := by
  have hsub : (x :: y :: S).Sublist (P ++ x :: y :: S) := List.sublist_append_right _ _
  have hxy : y.id < x.id := by
    obtain ⟨hx, -⟩ := List.pairwise_cons.mp (h.sublist hsub)
    exact hx y (by simp)
  rw [List.any_eq_true]
  exact ⟨y, by simp, by simpa using hxy⟩

/-! ## One forward page, unfolded -/

theorem paginate_step (groups : List Nat) (db : List Message) (g k : Nat)
    (hg : groups.contains g = true) (aft : Option String) (b : Option Nat)
    (hb : decodeBound aft = .ok b) :
    paginateMessages groups db g ⟨some (Int.ofNat k), aft, none, none⟩ =
      .ok { edges := ((applyAfter b (canonical db g)).take k).map mkEdge
          , pageInfo :=
            { hasNextPage := hasNextOf (canonical db g) ((applyAfter b (canonical db g)).take k)
            , hasPreviousPage :=
                hasPrevOf (canonical db g) ((applyAfter b (canonical db g)).take k) } } := by
  unfold paginateMessages
  rw [if_neg (fun hcon => hcon hg)]
  rw [if_neg (by
    simp only [negOpt, Int.ofNat_eq_natCast, Bool.or_false, Bool.or_self, decide_eq_true_eq]
    omega)]
  rw [hb]
  rfl

/-! ## The fetch-more loop walks the whole canonical order -/

theorem collectAll_suffix (groups : List Nat) (db : List Message) (g k : Nat)
    (hg : groups.contains g = true) (hk : 0 < k)
    (hdesc : (canonical db g).Pairwise (fun a b => b.id < a.id)) :
    ∀ (fuel : Nat) (P S : List Message) (aft : Option String) (b : Option Nat),
      canonical db g = P ++ S →
      S.length ≤ fuel →
      decodeBound aft = .ok b →
      applyAfter b (canonical db g) = S →
      collectAll groups db g k fuel aft = S.map mkEdge := by
  intro fuel
  induction fuel with
  | zero =>
    intro P S aft b hPS hlen hb hS
    have hSnil : S = [] := List.eq_nil_of_length_eq_zero (Nat.le_zero.mp hlen)
    subst hSnil
    simp [collectAll]
  | succ f ih =>
    intro P S aft b hPS hlen hb hS
    simp only [collectAll]
    rw [paginate_step groups db g k hg aft b hb, hS]
    by_cases hS0 : S = []
    · subst hS0
      simp
    · have hT : S.take k ≠ [] := by
        rw [ne_eq, List.take_eq_nil_iff]
        push_neg
        exact ⟨by omega, hS0⟩
      obtain ⟨x, hTlast⟩ : ∃ x, (S.take k).getLast? = some x :=
        ⟨_, List.getLast?_eq_getLast _ hT⟩
      by_cases hlenk : S.length ≤ k
      · -- the whole remainder fits in one page
        have hTS : S.take k = S := List.take_of_length_le hlenk
        rw [hTS] at hTlast ⊢
        have hSx : S.dropLast ++ [x] = S := List.dropLast_append_getLast? x hTlast
        have hdecomp : canonical db g = (P ++ S.dropLast) ++ [x] := by
          rw [hPS]
          conv_lhs => rw [← hSx]
          rw [← List.append_assoc]
        have hnext : hasNextOf (canonical db g) S = false := by
          unfold hasNextOf
          simp only [hTlast]
          rw [hdecomp]
          exact any_lt_last (P ++ S.dropLast) x (by rw [← hdecomp]; exact hdesc)
        simp only [List.getLast?_map, hTlast, Option.map_some', hnext,
          Bool.false_eq_true, if_false]
      · -- a full page of k edges, then recurse after the last cursor
        push_neg at hlenk
        have hSTR : S.take k ++ S.drop k = S := List.take_append_drop k S
        have hR0 : S.drop k ≠ [] := by
          have hRpos : 0 < (S.drop k).length := by
            rw [List.length_drop]
            omega
          exact List.ne_nil_of_length_pos hRpos
        obtain ⟨r0, R', hRcons⟩ := List.exists_cons_of_ne_nil hR0
        have hTx : (S.take k).dropLast ++ [x] = S.take k :=
          List.dropLast_append_getLast? x hTlast
        have hS_split : S = (S.take k).dropLast ++ x :: S.drop k := by
          conv_lhs => rw [← hSTR, ← hTx]
          rw [List.append_assoc, List.singleton_append]
        have hdecomp : canonical db g = (P ++ (S.take k).dropLast) ++ x :: S.drop k := by
          rw [hPS]
          conv_lhs => rw [hS_split]
          rw [← List.append_assoc]
        have hnext : hasNextOf (canonical db g) (S.take k) = true := by
          unfold hasNextOf
          simp only [hTlast]
          rw [hdecomp, hRcons]
          exact any_lt_more (P ++ (S.take k).dropLast) x r0 R'
            (by rw [← hRcons, ← hdecomp]; exact hdesc)
        have hb' : decodeBound (some (mkEdge x).cursor) = .ok (some x.id) := by
          simp [decodeBound, mkEdge, decodeCursor_encodeCursor]
        have hS' : applyAfter (some x.id) (canonical db g) = S.drop k := by
          show (canonical db g).filter (fun m => m.id < x.id) = S.drop k
          rw [hdecomp]
          exact filter_lt_suffix (P ++ (S.take k).dropLast) x (S.drop k)
            (by rw [← hdecomp]; exact hdesc)
        have hP' : canonical db g = ((P ++ (S.take k).dropLast) ++ [x]) ++ S.drop k := by
          rw [hdecomp]
          simp
        have hlen' : (S.drop k).length ≤ f := by
          rw [List.length_drop]
          omega
        have hrec := ih ((P ++ (S.take k).dropLast) ++ [x]) (S.drop k)
          (some (mkEdge x).cursor) (some x.id) hP' hlen' hb' hS'
        simp only [List.getLast?_map, hTlast, Option.map_some', hnext, if_true]
        rw [hrec, ← List.map_append, hSTR]

/-! ## Inversion of a successful pagination -/

theorem paginate_ok_inv (groups : List Nat) (db : List Message) (g : Nat)
    (ci : ConnectionInput) (conn : Connection)
    (hres : paginateMessages groups db g ci = .ok conn) :
    ∃ a b, decodeBound ci.after = .ok a ∧ decodeBound ci.before = .ok b ∧
      conn = { edges := (pageOf db g ci a b).map mkEdge
             , pageInfo :=
               { hasNextPage := hasNextOf (canonical db g) (pageOf db g ci a b)
               , hasPreviousPage := hasPrevOf (canonical db g) (pageOf db g ci a b) } } := by
  unfold paginateMessages at hres
  by_cases hcg : groups.contains g = true
  · rw [if_neg (fun hcon => hcon hcg)] at hres
    by_cases hneg : (negOpt ci.first || negOpt ci.last) = true
    · rw [if_pos hneg] at hres
      exact Except.noConfusion hres
    · rw [if_neg hneg] at hres
      cases ha : decodeBound ci.after with
      | error e =>
        cases hb : decodeBound ci.before with
        | error e2 =>
          rw [ha, hb] at hres
          exact Except.noConfusion hres
        | ok b =>
          rw [ha, hb] at hres
          exact Except.noConfusion hres
      | ok a =>
        cases hb : decodeBound ci.before with
        | error e =>
          rw [ha, hb] at hres
          exact Except.noConfusion hres
        | ok b =>
          rw [ha, hb] at hres
          exact ⟨a, b, rfl, rfl, (Except.ok.inj hres).symm⟩
  · rw [if_pos hcg] at hres
    exact Except.noConfusion hres

/-! ## Membership through the window -/

theorem mem_applyLast (f : Option Int) (l : List Message) (m : Message)
    (hm : m ∈ applyLast f l) : m ∈ l := by
  cases f with
  | none => exact hm
  | some f => exact List.mem_of_mem_drop hm

theorem mem_applyFirst (f : Option Int) (l : List Message) (m : Message)
    (hm : m ∈ applyFirst f l) : m ∈ l := by
  cases f with
  | none => exact hm
  | some f => exact List.mem_of_mem_take hm

theorem mem_applyBefore (b : Option Nat) (l : List Message) (m : Message)
    (hm : m ∈ applyBefore b l) : m ∈ l := by
  cases b with
  | none => exact hm
  | some k => exact (List.mem_filter.mp hm).1

theorem mem_applyAfter (a : Option Nat) (l : List Message) (m : Message)
    (hm : m ∈ applyAfter a l) : m ∈ l := by
  cases a with
  | none => exact hm
  | some k => exact (List.mem_filter.mp hm).1

theorem mem_applyAfter_lt (k : Nat) (l : List Message) (m : Message)
    (hm : m ∈ applyAfter (some k) l) : m.id < k := by
  have := (List.mem_filter.mp hm).2
  simpa using this

theorem mem_pageOf (db : List Message) (g : Nat) (ci : ConnectionInput)
    (a b : Option Nat) (m : Message) (hm : m ∈ pageOf db g ci a b) :
    m ∈ applyAfter a (canonical db g) :=
  mem_applyBefore _ _ _ (mem_applyFirst _ _ _ (mem_applyLast _ _ _ hm))

theorem pageOf_sublist (db : List Message) (g : Nat) (ci : ConnectionInput)
    (a b : Option Nat) : (pageOf db g ci a b).Sublist (canonical db g) := by
  unfold pageOf
  have h1 : (applyAfter a (canonical db g)).Sublist (canonical db g) := by
    cases a with
    | none => exact List.Sublist.refl _
    | some k => exact List.filter_sublist _
  have h2 : (applyBefore b (applyAfter a (canonical db g))).Sublist
      (applyAfter a (canonical db g)) := by
    cases b with
    | none => exact List.Sublist.refl _
    | some k => exact List.filter_sublist _
  have h3 : (applyFirst ci.first (applyBefore b (applyAfter a (canonical db g)))).Sublist
      (applyBefore b (applyAfter a (canonical db g))) := by
    cases ci.first with
    | none => exact List.Sublist.refl _
    | some f => exact List.take_sublist _ _
  have h4 : (applyLast ci.last (applyFirst ci.first (applyBefore b
      (applyAfter a (canonical db g))))).Sublist
      (applyFirst ci.first (applyBefore b (applyAfter a (canonical db g)))) := by
    cases ci.last with
    | none => exact List.Sublist.refl _
    | some f => exact List.drop_sublist _ _
  exact ((h4.trans h3).trans h2).trans h1

/-! ## PageInfo characterizations -/

theorem hasNextOf_edges_iff (base page : List Message) :
    hasNextOf base page = true ↔
      ∃ e, (page.map mkEdge).getLast? = some e ∧ ∃ m ∈ base, m.id < e.node.id := by
  rw [List.getLast?_map]
  unfold hasNextOf
  cases hp : page.getLast? with
  | none => simp
  | some m =>
    simp only [Option.map_some', List.any_eq_true, decide_eq_true_eq]
    constructor
    · rintro ⟨x, hx, hlt⟩
      exact ⟨mkEdge m, rfl, x, hx, hlt⟩
    · rintro ⟨e, he, x, hx, hlt⟩
      cases Option.some.inj he
      exact ⟨x, hx, hlt⟩

theorem hasPrevOf_edges_iff (base page : List Message) :
    hasPrevOf base page = true ↔
      ∃ e, (page.map mkEdge).head? = some e ∧ ∃ m ∈ base, e.node.id < m.id := by
  rw [List.head?_map]
  unfold hasPrevOf
  cases hp : page.head? with
  | none => simp
  | some m =>
    simp only [Option.map_some', List.any_eq_true, decide_eq_true_eq]
    constructor
    · rintro ⟨x, hx, hlt⟩
      exact ⟨mkEdge m, rfl, x, hx, hlt⟩
    · rintro ⟨e, he, x, hx, hlt⟩
      cases Option.some.inj he
      exact ⟨x, hx, hlt⟩

/-! ## The claims -/

/-- Claim C1: for every group whose messages were inserted in increasing
`id` order, `paginateMessages(groupId, {first: n})` returns its edges
ordered by `id` strictly descending (newest first), the canonical order
all cursors are defined against. -/
theorem C1_edges_strictly_descending (groups : List Nat) (db : List Message)
    (g n : Nat) (conn : Connection)
    (hasc : (db.filter (fun m => m.groupId == g)).Pairwise (fun a b => a.id < b.id))
    (hres : paginateMessages groups db g { first := some (Int.ofNat n) } = .ok conn) :
    conn.edges.Pairwise (fun e1 e2 => e2.node.id < e1.node.id) := by
  obtain ⟨a, b, ha, hb, rfl⟩ := paginate_ok_inv groups db g _ conn hres
  have hdesc : (canonical db g).Pairwise (fun a b => b.id < a.id) :=
    canonical_strictDesc db g hasc
  have hpage : (pageOf db g { first := some (Int.ofNat n) } a b).Pairwise
      (fun a b => b.id < a.id) :=
    hdesc.sublist (pageOf_sublist db g _ a b)
  exact List.pairwise_map.mpr hpage

theorem C1_witness :
    paginateMessages [1] demoDb 1 { first := some (Int.ofNat 5) } =
      .ok { edges := [⟨"14", ⟨14, 1, "e"⟩⟩, ⟨"13", ⟨13, 1, "d"⟩⟩, ⟨"12", ⟨12, 1, "c"⟩⟩,
                      ⟨"11", ⟨11, 1, "b"⟩⟩, ⟨"10", ⟨10, 1, "a"⟩⟩]
          , pageInfo := ⟨false, false⟩ } ∧
    List.Pairwise (fun e1 e2 => e2.node.id < e1.node.id)
      (Connection.edges
        { edges := [⟨"14", ⟨14, 1, "e"⟩⟩, ⟨"13", ⟨13, 1, "d"⟩⟩, ⟨"12", ⟨12, 1, "c"⟩⟩,
                    ⟨"11", ⟨11, 1, "b"⟩⟩, ⟨"10", ⟨10, 1, "a"⟩⟩]
        , pageInfo := ⟨false, false⟩ }) :=
  ⟨by decide, C1_edges_strictly_descending [1] demoDb 1 5 _ (by decide) (by decide)⟩

/-- Claim C2: for every group and page size `k > 0`, repeatedly fetching
`{first: k, after: cursor of the last edge of the previous page}` and
concatenating the edges reproduces the full canonical descending message
list — no duplicates, no omissions — the loop stopping once a page reports
`hasNextPage = false` (the fuel `(canonical db g).length` is never
exhausted first). -/
theorem C2_forward_pagination_complete (groups : List Nat) (db : List Message)
    (g k : Nat) (hg : groups.contains g = true) (hk : 0 < k)
    (hasc : (db.filter (fun m => m.groupId == g)).Pairwise (fun a b => a.id < b.id)) :
    collectAll groups db g k (canonical db g).length none = (canonical db g).map mkEdge :=
  collectAll_suffix groups db g k hg hk (canonical_strictDesc db g hasc)
    (canonical db g).length [] (canonical db g) none none rfl (Nat.le_refl _) rfl rfl

theorem C2_witness :
    0 < 2 ∧
    collectAll [1] demoDb 1 2 (canonical demoDb 1).length none =
      (canonical demoDb 1).map mkEdge :=
  ⟨by decide, C2_forward_pagination_complete [1] demoDb 1 2 (by decide) (by decide) (by decide)⟩

/-- Claim C3: the `after` bound is strict and exclusive — every edge of a
page requested with a decodable `after` cursor has `id` strictly below the
cursor's referent — and the spec's concrete scenario on ids
`[10, 11, 12, 13, 14]` paginates `[14,13]`, then `[12,11]` after
`cursor(13)`, then `[10]` after `cursor(11)`, with the stated page info. -/
theorem C3_after_strictly_exclusive :
    (∀ (groups : List Nat) (db : List Message) (g : Nat) (ci : ConnectionInput)
       (s : String) (key : Nat) (conn : Connection),
        ci.after = some s →
        decodeCursor s = some key →
        paginateMessages groups db g ci = .ok conn →
        ∀ e ∈ conn.edges, e.node.id < key) ∧
    paginateMessages [1] demoDb 1 { first := some 2 } =
      .ok { edges := [⟨"14", ⟨14, 1, "e"⟩⟩, ⟨"13", ⟨13, 1, "d"⟩⟩]
          , pageInfo := ⟨true, false⟩ } ∧
    paginateMessages [1] demoDb 1 { first := some 2, after := some (encodeCursor 13) } =
      .ok { edges := [⟨"12", ⟨12, 1, "c"⟩⟩, ⟨"11", ⟨11, 1, "b"⟩⟩]
          , pageInfo := ⟨true, true⟩ } ∧
    paginateMessages [1] demoDb 1 { first := some 2, after := some (encodeCursor 11) } =
      .ok { edges := [⟨"10", ⟨10, 1, "a"⟩⟩]
          , pageInfo := ⟨false, true⟩ } := by
  refine ⟨?_, by decide, by decide, by decide⟩
  intro groups db g ci s key conn hafter hdec hres
  obtain ⟨a, b, ha, hb, rfl⟩ := paginate_ok_inv groups db g ci conn hres
  have ha' : a = some key := by
    rw [hafter] at ha
    simp only [decodeBound, hdec, Except.ok.injEq] at ha
    exact ha.symm
  intro e he
  obtain ⟨m, hm, rfl⟩ := List.mem_map.mp he
  have hma : m ∈ applyAfter a (canonical db g) := mem_pageOf db g ci a b m hm
  rw [ha'] at hma
  exact mem_applyAfter_lt key _ m hma

theorem C3_witness :
    (⟨"12", ⟨12, 1, "c"⟩⟩ : Edge).node.id < 13 :=
  C3_after_strictly_exclusive.1 [1] demoDb 1
    { first := some 2, after := some (encodeCursor 13) } (encodeCursor 13) 13
    { edges := [⟨"12", ⟨12, 1, "c"⟩⟩, ⟨"11", ⟨11, 1, "b"⟩⟩], pageInfo := ⟨true, true⟩ }
    rfl (by decide) (by decide) ⟨"12", ⟨12, 1, "c"⟩⟩ (by decide)

/-- Claim C4: cursor encoding is a pure deterministic function of the
message's ordering key and decoding is its left inverse, so every edge of
every page carries `cursor = encode(node.id)` and
`decode(encode(id)) = id`; since `decodeCursor` takes only the cursor
string, the key a cursor resolves to is unaffected by any later insertion
into the message table. -/
theorem C4_cursor_roundtrip :
    (∀ n : Nat, decodeCursor (encodeCursor n) = some n) ∧
    (∀ (groups : List Nat) (db : List Message) (g : Nat) (ci : ConnectionInput)
       (conn : Connection), paginateMessages groups db g ci = .ok conn →
        ∀ e ∈ conn.edges, e.cursor = encodeCursor e.node.id ∧
          decodeCursor e.cursor = some e.node.id) := by
  refine ⟨decodeCursor_encodeCursor, ?_⟩
  intro groups db g ci conn hres e he
  obtain ⟨a, b, ha, hb, rfl⟩ := paginate_ok_inv groups db g ci conn hres
  obtain ⟨m, hm, rfl⟩ := List.mem_map.mp he
  exact ⟨rfl, decodeCursor_encodeCursor m.id⟩

theorem C4_witness : decodeCursor (encodeCursor 13) = some 13 :=
  C4_cursor_roundtrip.1 13

/-- Claim C5: in every successful result, `hasNextPage` is true iff
messages remain in the canonical descending order beyond the page's last
edge, and `hasPreviousPage` is true iff messages exist before its first
edge; in particular a group of 3 messages queried with `{first: 10}`
yields all 3 edges and `hasNextPage = false`. -/
theorem C5_pageinfo_correct :
    (∀ (groups : List Nat) (db : List Message) (g : Nat) (ci : ConnectionInput)
       (conn : Connection), paginateMessages groups db g ci = .ok conn →
        (conn.pageInfo.hasNextPage = true ↔
          ∃ e, conn.edges.getLast? = some e ∧ ∃ m ∈ canonical db g, m.id < e.node.id) ∧
        (conn.pageInfo.hasPreviousPage = true ↔
          ∃ e, conn.edges.head? = some e ∧ ∃ m ∈ canonical db g, e.node.id < m.id)) ∧
    paginateMessages [7] threeDb 7 { first := some 10 } =
      .ok { edges := [⟨"3", ⟨3, 7, "r"⟩⟩, ⟨"2", ⟨2, 7, "q"⟩⟩, ⟨"1", ⟨1, 7, "p"⟩⟩]
          , pageInfo := ⟨false, false⟩ } := by
  refine ⟨?_, by decide⟩
  intro groups db g ci conn hres
  obtain ⟨a, b, ha, hb, rfl⟩ := paginate_ok_inv groups db g ci conn hres
  exact ⟨hasNextOf_edges_iff (canonical db g) (pageOf db g ci a b),
    hasPrevOf_edges_iff (canonical db g) (pageOf db g ci a b)⟩

theorem C5_witness :
    (Connection.pageInfo
        { edges := [⟨"14", ⟨14, 1, "e"⟩⟩, ⟨"13", ⟨13, 1, "d"⟩⟩]
        , pageInfo := ⟨true, false⟩ }).hasNextPage = true ↔
      ∃ e, (Connection.edges
        { edges := [⟨"14", ⟨14, 1, "e"⟩⟩, ⟨"13", ⟨13, 1, "d"⟩⟩]
        , pageInfo := ⟨true, false⟩ }).getLast? = some e ∧
        ∃ m ∈ canonical demoDb 1, m.id < e.node.id :=
  (C5_pageinfo_correct.1 [1] demoDb 1 { first := some 2 }
    { edges := [⟨"14", ⟨14, 1, "e"⟩⟩, ⟨"13", ⟨13, 1, "d"⟩⟩]
    , pageInfo := ⟨true, false⟩ } (by decide)).1

/-- Claim C6: on an existing group with zero messages,
`paginateMessages(groupId, {first: 5})` returns the empty connection with
both page-info flags false. -/
theorem C6_empty_group (groups : List Nat) (db : List Message) (g : Nat)
    (hg : groups.contains g = true)
    (hempty : ∀ m ∈ db, m.groupId ≠ g) :
    paginateMessages groups db g { first := some (Int.ofNat 5) } =
      .ok { edges := [], pageInfo := ⟨false, false⟩ } := by
  have hfil : db.filter (fun m => m.groupId == g) = [] := by
    rw [List.filter_eq_nil_iff]
    intro m hm
    simpa using hempty m hm
  have hcan : canonical db g = [] := by
    unfold canonical
    rw [hfil]
    rfl
  have hstep := paginate_step groups db g 5 hg none none rfl
  rw [hstep, hcan]
  rfl

theorem C6_witness :
    ([3] : List Nat).contains 3 = true ∧
    paginateMessages [3] [⟨5, 4, "z"⟩] 3 { first := some (Int.ofNat 5) } =
      .ok { edges := [], pageInfo := ⟨false, false⟩ } :=
  ⟨by decide, C6_empty_group [3] [⟨5, 4, "z"⟩] 3 (by decide) (by decide)⟩

/-- Claim C7: whenever the requested group id does not resolve to an
existing group, pagination fails with the distinguishable `NotFound`
error — no partial result is produced, for any connection input. -/
theorem C7_notfound (groups : List Nat) (db : List Message) (g : Nat)
    (ci : ConnectionInput) (hng : groups.contains g = false) :
    paginateMessages groups db g ci = .error .NotFound := by
  unfold paginateMessages
  rw [if_pos (show ¬ groups.contains g = true by
    intro hcon
    rw [hng] at hcon
    exact Bool.false_ne_true hcon)]

theorem C7_witness :
    ([1] : List Nat).contains 9999 = false ∧
    paginateMessages [1] demoDb 9999 { first := some 1 } = .error .NotFound :=
  ⟨by decide, C7_notfound [1] demoDb 9999 { first := some 1 } (by decide)⟩

/-- Claim C8: on an existing group, an input whose `first` or `last` is
negative fails with the distinguishable `InvalidRange` error — the value
is never clamped and no page is produced. -/
theorem C8_invalidrange (groups : List Nat) (db : List Message) (g : Nat)
    (ci : ConnectionInput) (hg : groups.contains g = true)
    (hneg : (negOpt ci.first || negOpt ci.last) = true) :
    paginateMessages groups db g ci = .error .InvalidRange := by
  unfold paginateMessages
  rw [if_neg (fun hcon => hcon hg), if_pos hneg]

theorem C8_witness :
    (negOpt (some (-1)) || negOpt none) = true ∧
    paginateMessages [1] demoDb 1 { first := some (-1) } = .error .InvalidRange :=
  ⟨by decide, C8_invalidrange [1] demoDb 1 { first := some (-1) } (by decide) (by decide)⟩

/-- Claim C9: when the argument object carries no `messageConnection`, the
resolver behaves exactly as if all four fields were absent — it
substitutes no page-size default of its own — and any caller-supplied
connection (such as the client defaults `{first: 1}` or `{first: 0}`) is
forwarded to the pagination core unchanged. -/
theorem C9_no_hardcoded_default (groups : List Nat) (db : List Message) (g : Nat) :
    messagesResolver groups db g none =
      paginateMessages groups db g
        { first := none, after := none, last := none, before := none } ∧
    (∀ ci : ConnectionInput,
      messagesResolver groups db g (some ci) = paginateMessages groups db g ci) :=
  ⟨rfl, fun _ => rfl⟩

theorem C9_witness :
    messagesResolver [1] demoDb 1 none =
      paginateMessages [1] demoDb 1
        { first := none, after := none, last := none, before := none } :=
  (C9_no_hardcoded_default [1] demoDb 1).1

/-- Claim C10: every edge of every successful page carries a message of
the requested group — the base filter `where = {groupId: group.id}` is
applied before any cursor bound or limit, so even an `after`/`before`
cursor referring to another group's message cannot leak foreign
messages into the page. -/
theorem C10_group_scoped (groups : List Nat) (db : List Message) (g : Nat)
    (ci : ConnectionInput) (conn : Connection)
    (hres : paginateMessages groups db g ci = .ok conn) :
    ∀ e ∈ conn.edges, e.node.groupId = g := by
  obtain ⟨a, b, ha, hb, rfl⟩ := paginate_ok_inv groups db g ci conn hres
  intro e he
  obtain ⟨m, hm, rfl⟩ := List.mem_map.mp he
  exact mem_canonical_groupId db g m
    (mem_applyAfter a _ m (mem_pageOf db g ci a b m hm))

theorem C10_witness :
    (Message.groupId ⟨14, 1, "e"⟩) = 1 :=
  C10_group_scoped [1, 2] twoGroupDb 1
    { first := some 5, after := some (encodeCursor 21) }
    { edges := [⟨"14", ⟨14, 1, "e"⟩⟩, ⟨"13", ⟨13, 1, "d"⟩⟩, ⟨"12", ⟨12, 1, "c"⟩⟩,
                ⟨"11", ⟨11, 1, "b"⟩⟩, ⟨"10", ⟨10, 1, "a"⟩⟩]
    , pageInfo := ⟨false, false⟩ }
    (by decide) ⟨"14", ⟨14, 1, "e"⟩⟩ (by decide)
